import Mathlib

/-!
The PDF scraper `main.go` of uschem-com-documentation.

A shallow embedding of `main.go` and the properties of its filename derivation,
link extraction, de-duplication, URL normalisation and download commit.

Modelling conventions.

* A Go `string` is modelled as the list of runes that `regexp` and `strings`
  see when they decode it (`GoString = List Char`); an invalid byte is the rune
  U+FFFD.  Every ASCII byte is a rune of its own, so the byte-level functions
  used by the program (`filepath.Base`, `filepath.Ext`, `strings.Trim`,
  `strings.ReplaceAll`, `strings.Contains` with ASCII arguments) act on the
  rune list exactly as they act on the bytes.
* Functions of the Go standard library are modelled next to the function of
  `main.go` that calls them.  Where only a part of a library function is
  modelled, the remainder is a parameter (`unicodeLower`, `otherAuthority`, the
  fields of `World`).
* `filepath` is the Unix one (the separator is `/`, there is no volume name).
* Logging is not modelled.
-/

namespace USChem

/-! ## Go strings and the standard-library functions the program calls -/

/-- A Go string, as the sequence of its runes. -/
abbrev GoString := List Char

/-- Rune-wise `unicode.ToLower`: the ASCII range is `A-Z ↦ a-z`; outside ASCII
the case table of Go's `unicode` package decides, which is the parameter
`unicodeLower`. -/
def toLowerRune (unicodeLower : Char → Char) (c : Char) : Char :=
  if c.toNat < 128 then c.toLower else unicodeLower c

/-- Go `strings.ToLower`. -/
def stringsToLower (unicodeLower : Char → Char) (s : GoString) : GoString :=
  s.map (toLowerRune unicodeLower)

/-- Go `filepath.Base` (Unix): `"."` for the empty path, trailing slashes
stripped, then the text after the last slash, `"/"` if nothing is left. -/
def filepathBase (path : GoString) : GoString :=
  if path = [] then ['.']
  else
    let stripped := (path.reverse.dropWhile (fun c => c == '/')).reverse
    let last := (stripped.reverse.takeWhile (fun c => c != '/')).reverse
    if last = [] then ['/'] else last

/-- Go `filepath.Ext` (Unix): scanning from the end while no slash is met, the
suffix starting at the first dot found; empty if there is none. -/
def filepathExt (path : GoString) : GoString :=
  let scanned := path.reverse.takeWhile (fun c => c != '/' && c != '.')
  match path.reverse.drop scanned.length with
  | '.' :: _ => '.' :: scanned.reverse
  | _ => []

/-- Go `strings.Trim s cutset`: leading and trailing runes of `cutset` removed. -/
def stringsTrim (s cutset : GoString) : GoString :=
  ((s.dropWhile (fun c => cutset.contains c)).reverse.dropWhile
    (fun c => cutset.contains c)).reverse

/-- The scan of `strings.ReplaceAll s old ""` for a non-empty `old`: left to
right, each occurrence of `old` found at the cursor is dropped and the scan
resumes after it.  The counter is the number of runes of the occurrence being
dropped that are still ahead of the cursor. -/
def removeScan (old : GoString) : Nat → GoString → GoString
  | _, [] => []
  | k + 1, _ :: cs => removeScan old k cs
  | 0, c :: cs =>
    if old.isPrefixOf (c :: cs) then removeScan old (old.length - 1) cs
    else c :: removeScan old 0 cs

/-- Go `strings.Contains`. -/
def stringsContains (s sub : GoString) : Bool :=
  s.tails.any (fun t => sub.isPrefixOf t)

/-- The character class `[a-z0-9]`. -/
def isLowerAlnum (c : Char) : Bool :=
  (97 ≤ c.toNat && c.toNat ≤ 122) || (48 ≤ c.toNat && c.toNat ≤ 57)

/-- The call `regexp.MustCompile("[^a-z0-9]").ReplaceAllString(s, "_")`: every rune
outside `[a-z0-9]` is a match and is replaced by one underscore. -/
def replaceNonAlnum (s : GoString) : GoString :=
  s.map (fun c => if isLowerAlnum c then c else '_')

/-- The scan of `regexp.MustCompile("_+").ReplaceAllString(s, "_")`: a match starts at
an underscore and greedily takes the whole run, which is replaced by a single
underscore.  The flag tells that the cursor is inside a run already replaced. -/
def collapseRuns : Bool → GoString → GoString
  | _, [] => []
  | inRun, c :: cs =>
    if c = '_' then
      if inRun then collapseRuns true cs else '_' :: collapseRuns true cs
    else c :: collapseRuns false cs

/-! ## `main.go`: filename derivation -/

/-- Go `getFilename`: `filepath.Base`. -/
def getFilename (path : GoString) : GoString := filepathBase path

/-- Go `removeSubstring`: `strings.ReplaceAll(input, toRemove, "")`, which
returns `input` when `toRemove` is empty. -/
def removeSubstring (input toRemove : GoString) : GoString :=
  if toRemove = [] then input else removeScan toRemove 0 input

/-- Go `getFileExtension`: `filepath.Ext`. -/
def getFileExtension (path : GoString) : GoString := filepathExt path

/-- The list `invalidSubstrings` of `urlToFilename`. -/
def invalidSubstrings : List GoString := [['_', 'p', 'd', 'f']]

/-- The value of `safe` in `urlToFilename` after the loop over
`invalidSubstrings`, before the extension is enforced. -/
def safeStem (unicodeLower : Char → Char) (rawURL : GoString) : GoString :=
  let lower := stringsToLower unicodeLower rawURL
  let lower := getFilename lower
  let safe := replaceNonAlnum lower
  let safe := collapseRuns false safe
  let safe := stringsTrim safe ['_']
  invalidSubstrings.foldl removeSubstring safe

/-- Go `urlToFilename`. -/
def urlToFilename (unicodeLower : Char → Char) (rawURL : GoString) : GoString :=
  let safe := safeStem unicodeLower rawURL
  if getFileExtension safe ≠ ['.', 'p', 'd', 'f'] then safe ++ ['.', 'p', 'd', 'f'] else safe

/-! ## Predicates used to state the properties of the filename -/

/-- No two consecutive underscores. -/
def NoDouble (s : GoString) : Prop :=
  List.Chain' (fun a b => ¬(a = '_' ∧ b = '_')) s

/-- A rune of the class `[a-z0-9_]`. -/
def okChar (c : Char) : Prop := isLowerAlnum c = true ∨ c = '_'

/-- The collapsed and trimmed name, from which `urlToFilename` removes `_pdf`. -/
def trimmedName (unicodeLower : Char → Char) (rawURL : GoString) : GoString :=
  stringsTrim (collapseRuns false
    (replaceNonAlnum (getFilename (stringsToLower unicodeLower rawURL)))) ['_']

/-- An ASCII letter or digit. -/
def isAsciiAlnum (c : Char) : Bool :=
  isLowerAlnum c || (65 ≤ c.toNat && c.toNat ≤ 90)

/-- The pattern `^[a-z0-9_]+\.pdf$`: a non-empty stem of runes from `a-z`, `0-9`
and `_`, followed by `.pdf`. -/
def MatchesSafePattern (f : GoString) : Prop :=
  ∃ stem : GoString, stem ≠ [] ∧ (∀ c ∈ stem, isLowerAlnum c = true ∨ c = '_') ∧
    f = stem ++ ['.', 'p', 'd', 'f']

/-! ## `main.go`: link extraction and de-duplication -/

/-- The part `[^"]+\.pdf"` of the pattern of `extractPDFUrls`, matched at the cursor
the way Go's leftmost-first matcher prefers: the class takes one rune, then
greedily more, and only when no longer run leads to a match is `\.pdf"` tried
right after the rune.  `acc` holds the runes the class has taken so far; the
result is the text of the capture group. -/
def matchClassPlus : GoString → GoString → Option GoString
  | _, [] => none
  | acc, c :: cs =>
    if c = '"' then none
    else
      match matchClassPlus (acc ++ [c]) cs with
      | some cap => some cap
      | none =>
        if ['.', 'p', 'd', 'f', '"'].isPrefixOf cs then some (acc ++ [c] ++ ['.', 'p', 'd', 'f'])
        else none

/-- One match of `href="([^"]+\.pdf)"` starting at the cursor: the slice of groups,
`match[0]` the whole match and `match[1]` the capture group. -/
def matchAt (s : GoString) : Option (List GoString) :=
  if ['h', 'r', 'e', 'f', '=', '"'].isPrefixOf s then
    (matchClassPlus [] (s.drop 6)).map
      (fun cap => [['h', 'r', 'e', 'f', '=', '"'] ++ cap ++ ['"'], cap])
  else none

/-- Go `FindAllStringSubmatch(s, -1)` for the pattern of `extractPDFUrls`: the
successive non-overlapping matches, leftmost first.  The counter is the number
of runes of the last match that are still ahead of the cursor. -/
def findAllStringSubmatch : Nat → GoString → List (List GoString)
  | _, [] => []
  | k + 1, _ :: cs => findAllStringSubmatch k cs
  | 0, c :: cs =>
    match matchAt (c :: cs) with
    | some m => m :: findAllStringSubmatch ((m.headD []).length - 1) cs
    | none => findAllStringSubmatch 0 cs

/-- Go `extractPDFUrls`. -/
def extractPDFUrls (htmlContent : GoString) : List GoString :=
  (findAllStringSubmatch 0 htmlContent).foldl
    (fun pdfURLs m => if m.length > 1 then pdfURLs ++ [m.getD 1 []] else pdfURLs) []

/-- Go `removeDuplicatesFromSlice`.  The map `check` is modelled by its lookup
function, which is `false` on a key that was never stored. -/
def removeDuplicatesFromSlice (slice : List GoString) : List GoString :=
  (slice.foldl
    (fun (st : (GoString → Bool) × List GoString) content =>
      if !st.1 content then
        (fun k => if k = content then true else st.1 k, st.2 ++ [content])
      else st)
    (fun _ => false, [])).2

/-! ## The occurrences `href="v"` of a text and the first occurrences of a list -/

/-- The value `v` of an occurrence `href="v"` at the head of `s`, `v` without a
double quote: the runes between `href="` and the next double quote. -/
def hrefValueAt (s : GoString) : Option GoString :=
  if ['h', 'r', 'e', 'f', '=', '"'].isPrefixOf s then
    let v := (s.drop 6).takeWhile (fun c => c != '"')
    if ((s.drop 6).drop v.length).head? = some '"' then some v else none
  else none

/-- The values `v` of the occurrences `href="v"` in the text, in order of position,
that satisfy `keep`. -/
def hrefValues (keep : GoString → Bool) (text : GoString) : List GoString :=
  text.tails.filterMap (fun t => (hrefValueAt t).filter keep)

/-- The value ends in the literal `.pdf`. -/
def endsInPdf (v : GoString) : Bool := ['.', 'p', 'd', 'f'].isSuffixOf v

/-- The strings that precede the position of `xs` are `before`: the elements of `xs`
that occur neither in `before` nor earlier in `xs`, in order. -/
def firstOccurrencesFrom (before : List GoString) : List GoString → List GoString
  | [] => []
  | x :: xs =>
    if x ∈ before then firstOccurrencesFrom (before ++ [x]) xs
    else x :: firstOccurrencesFrom (before ++ [x]) xs

/-- The subsequence of `xs` made of each string's first occurrence. -/
def firstOccurrences (xs : List GoString) : List GoString := firstOccurrencesFrom [] xs

/-! ## `main.go`: host check and URL normalisation -/

/-- Go `stringContainsCTLByte` of `net/url`: an ASCII control character occurs. -/
def stringContainsCTLByte (s : GoString) : Bool :=
  s.any (fun c => c.toNat < 32 || c.toNat == 127)

/-- An ASCII letter. -/
def isLetter (c : Char) : Bool :=
  (97 ≤ c.toNat && c.toNat ≤ 122) || (65 ≤ c.toNat && c.toNat ≤ 90)

/-- An ASCII digit. -/
def isDigit (c : Char) : Bool := 48 ≤ c.toNat && c.toNat ≤ 57

/-- Go `ishex` of `net/url`. -/
def ishex (c : Char) : Bool :=
  isDigit c || (97 ≤ c.toNat && c.toNat ≤ 102) || (65 ≤ c.toNat && c.toNat ≤ 70)

/-- The loop of Go `getScheme`: `seen` is the text before the cursor.  Letters go on;
a digit, `+`, `-` or `.` goes on unless it is the first rune; a colon ends the
scheme and is an error when it is the first rune; any other rune means that
there is no scheme. -/
def getSchemeLoop (rawURL : GoString) : GoString → GoString → Option (GoString × GoString)
  | _, [] => some ([], rawURL)
  | seen, c :: cs =>
    if isLetter c then getSchemeLoop rawURL (seen ++ [c]) cs
    else if isDigit c || c == '+' || c == '-' || c == '.' then
      if seen == [] then some ([], rawURL) else getSchemeLoop rawURL (seen ++ [c]) cs
    else if c == ':' then
      if seen == [] then none else some (seen, cs)
    else some ([], rawURL)

/-- Go `getScheme` of `net/url`: the scheme and the text after its colon, `none` for
the error `missing protocol scheme`. -/
def getScheme (rawURL : GoString) : Option (GoString × GoString) :=
  getSchemeLoop rawURL [] rawURL

/-- Whether Go `unescape` returns an error in the modes of a path or a fragment: some
`%` is not followed by two hexadecimal digits.  After a well-formed escape the
scan resumes behind its three runes. -/
def hasBadEscape : GoString → Bool
  | [] => false
  | c :: cs =>
    if c = '%' then
      match cs with
      | a :: b :: rest => if ishex a && ishex b then hasBadEscape rest else true
      | _ => true
    else hasBadEscape cs

/-- The query is taken off in Go `parse`: a single `?` at the very end is dropped,
otherwise the text is cut at the first `?`. -/
def stripQuery (rest : GoString) : GoString :=
  if rest.getLast? == some '?' && rest.count '?' == 1 then rest.dropLast
  else rest.takeWhile (fun c => c != '?')

/-- A rune that may stand in a plain host name: an ASCII letter, a digit, `.` or `-`. -/
def isPlainHostRune (c : Char) : Bool := isLetter c || isDigit c || c == '.' || c == '-'

/-- The host that Go `parseAuthority` returns, `none` when it returns an error.  An
authority made only of ASCII letters, digits, `.` and `-` has no user
information, no bracket, no port and no escape, and is the host as it stands.
What `parseAuthority` does with any other authority is the parameter
`otherAuthority`. -/
def parseAuthority (otherAuthority : GoString → Option GoString) (authority : GoString) :
    Option GoString :=
  if authority.all isPlainHostRune then some authority else otherAuthority authority

/-- The `Host` field that Go `parse(rawURL, false)` of `net/url` returns, `none` when
it returns an error: control characters are rejected, `*` has no host, the scheme
and the query are taken off, a rootless path is opaque under a scheme and may not
have a colon in its first segment otherwise, an authority follows `//`, and the
path is unescaped. -/
def parse (otherAuthority : GoString → Option GoString) (rawURL : GoString) :
    Option GoString :=
  if stringContainsCTLByte rawURL then none
  else if rawURL == ['*'] then some []
  else
    match getScheme rawURL with
    | none => none
    | some (scheme, rest) =>
      let rest := stripQuery rest
      if rest.head? != some '/' && scheme != [] then some []
      else if rest.head? != some '/' && (rest.takeWhile (fun c => c != '/')).contains ':' then
        none
      else if (scheme != [] || !List.isPrefixOf ['/', '/', '/'] rest) &&
          List.isPrefixOf ['/', '/'] rest then
        let authority := (rest.drop 2).takeWhile (fun c => c != '/')
        let rest := (rest.drop 2).dropWhile (fun c => c != '/')
        match parseAuthority otherAuthority authority with
        | none => none
        | some host => if hasBadEscape rest then none else some host
      else if hasBadEscape rest then none
      else some []

/-- The `Host` field that Go `url.Parse` returns, `none` when it returns an error:
the fragment is cut off at the first `#`, the rest is parsed, and a non-empty
fragment is unescaped. -/
def urlParseHost (otherAuthority : GoString → Option GoString) (rawURL : GoString) :
    Option GoString :=
  let u := rawURL.takeWhile (fun c => c != '#')
  let frag := (rawURL.dropWhile (fun c => c != '#')).drop 1
  match parse otherAuthority u with
  | none => none
  | some host =>
    if frag == [] then some host
    else if hasBadEscape frag then none
    else some host

/-- Go `hasDomain`. -/
def hasDomain (otherAuthority : GoString → Option GoString) (rawURL : GoString) : Bool :=
  match urlParseHost otherAuthority rawURL with
  | none => false
  | some host => host != []

/-- The origin that the loop of `main` puts before a URL without a host. -/
def baseOrigin : GoString := "https://www.uschem.com".toList

/-- The normalisation step of the loop of `main`:
`if !hasDomain(urls) { urls = "https://www.uschem.com" + urls }`. -/
def normalize (otherAuthority : GoString → Option GoString) (urls : GoString) : GoString :=
  if !hasDomain otherAuthority urls then baseOrigin ++ urls else urls

/-- What a path names in the file system. -/
inductive FileNode where
  | file (content : GoString)
  | dir
  deriving DecidableEq

/-- The file system: what each path names, if anything. -/
abbrev FS := GoString → Option FileNode

/-- The file system with `path` naming `node`. -/
def FS.set (fs : FS) (path : GoString) (node : Option FileNode) : FS :=
  fun p => if p = path then node else fs p

/-- An HTTP response as the program reads it: status code, the `Content-Type`
header, the bytes the body delivers, and whether reading the body ends in an
error.  Byte sequences (bodies, file contents) are modelled like strings. -/
structure Response where
  StatusCode : Nat
  ContentType : GoString
  Body : GoString
  readErr : Bool

/-- The state the program acts on: the file system and the requests sent so far. -/
structure State where
  fs : FS
  requests : List GoString

/-- The surroundings of a run: the parts of the Go standard library that are
parameters of the model, and the answers of the network and of the operating
system.  `httpGet` answers a GET given the requests sent before it, `none` being
a network error; `writeErr` is `none` when a write succeeds and otherwise the
number of runes written before the error. -/
structure World where
  unicodeLower : Char → Char
  otherAuthority : GoString → Option GoString
  parseRequestURI : GoString → Bool
  join : GoString → GoString → GoString
  httpGet : List GoString → GoString → Option Response
  mkdirOk : FS → GoString → Bool
  removeOk : FS → GoString → Bool
  openOk : FS → GoString → Bool
  createOk : FS → GoString → Bool
  writeErr : FS → GoString → Option Nat

/-- Go `fileExists`: `os.Stat` succeeds and the path is not a directory. -/
def fileExists (fs : FS) (filename : GoString) : Bool :=
  match fs filename with
  | some (FileNode.file _) => true
  | _ => false

/-- Go `directoryExists`. -/
def directoryExists (fs : FS) (path : GoString) : Bool :=
  match fs path with
  | some FileNode.dir => true
  | _ => false

/-- Go `removeFile`: `os.Remove`, the error only logged. -/
def removeFile (w : World) (path : GoString) (st : State) : State :=
  if w.removeOk st.fs path then { st with fs := st.fs.set path none } else st

/-- Go `createDirectory`: `os.Mkdir`, which fails on an existing path; the error is
only logged. -/
def createDirectory (w : World) (path : GoString) (st : State) : State :=
  if (st.fs path).isNone && w.mkdirOk st.fs path then
    { st with fs := st.fs.set path (some FileNode.dir) }
  else st

/-- Go `isUrlValid`: `url.ParseRequestURI` returns no error. -/
def isUrlValid (w : World) (uri : GoString) : Bool := w.parseRequestURI uri

/-- Go `downloadPDF`: the reported result and the state afterwards. -/
def downloadPDF (w : World) (finalURL outputDir : GoString) (st : State) : Bool × State :=
  let filename := stringsToLower w.unicodeLower (urlToFilename w.unicodeLower finalURL)
  let filePath := w.join outputDir filename
  if fileExists st.fs filePath then (false, st)
  else
    let st1 : State := { st with requests := st.requests ++ [finalURL] }
    match w.httpGet st.requests finalURL with
    | none => (false, st1)
    | some resp =>
      if resp.StatusCode ≠ 200 then (false, st1)
      else if !stringsContains resp.ContentType "binary/octet-stream".toList &&
          !stringsContains resp.ContentType "application/pdf".toList then (false, st1)
      else if resp.readErr then (false, st1)
      else if resp.Body.length = 0 then (false, st1)
      else
        match st.fs filePath with
        | some FileNode.dir => (false, st1)
        | _ =>
          if !w.createOk st.fs filePath then (false, st1)
          else
            match w.writeErr st.fs filePath with
            | some n =>
              (false, { st1 with fs := st.fs.set filePath (some (FileNode.file (resp.Body.take n))) })
            | none =>
              (true, { st1 with fs := st.fs.set filePath (some (FileNode.file resp.Body)) })

/-- Go `getDataFromURL`; `none` is the run-time panic of `response.Body` on the nil
response that `http.Get` returns together with an error. -/
def getDataFromURL (w : World) (uri : GoString) (st : State) : Option (GoString × State) :=
  match w.httpGet st.requests uri with
  | none => none
  | some response => some (response.Body, { st with requests := st.requests ++ [uri] })

/-- Go `appendAndWriteToFile`: when `os.OpenFile` fails the nil file makes
`WriteString` and `Close` return errors, which are only logged. -/
def appendAndWriteToFile (w : World) (path content : GoString) (st : State) : State :=
  match st.fs path with
  | some FileNode.dir => st
  | node =>
    if !w.openOk st.fs path then st
    else
      let old := match node with
        | some (FileNode.file c) => c
        | _ => []
      let added := match w.writeErr st.fs path with
        | some n => (content ++ ['\n']).take n
        | none => content ++ ['\n']
      { st with fs := st.fs.set path (some (FileNode.file (old ++ added))) }

/-- The directory of the downloads. -/
def outputDir : GoString := "PDFs/".toList

/-- The file of the page snapshot. -/
def localFile : GoString := "littletrees.html".toList

/-- The page that is scraped. -/
def remoteURL : GoString := "https://www.uschem.com/en/products/body-fillers/index.html".toList

/-- Go `main`; `none` is a run that ends in a panic. -/
def main (w : World) (st : State) : Option State :=
  let st := if !directoryExists st.fs outputDir then createDirectory w outputDir st else st
  let st := if fileExists st.fs localFile then removeFile w localFile st else st
  match getDataFromURL w remoteURL st with
  | none => none
  | some (pageContent, st) =>
    let st := appendAndWriteToFile w localFile pageContent st
    let extractedPDFURLs := removeDuplicatesFromSlice (extractPDFUrls pageContent)
    some (extractedPDFURLs.foldl
      (fun st urls =>
        let urls := normalize w.otherAuthority urls
        if isUrlValid w urls then (downloadPDF w urls outputDir st).2 else st)
      st)

/-! ## Rejected responses and the worlds of the examples -/

/-- The response is one that the specification lists as rejected: a network error, a status
other than 200, a `Content-Type` that contains neither `binary/octet-stream` nor
`application/pdf`, or an empty body. -/
def Rejected (resp : Option Response) : Prop :=
  match resp with
  | none => True
  | some r =>
    r.StatusCode ≠ 200 ∨
    (stringsContains r.ContentType "binary/octet-stream".toList = false ∧
      stringsContains r.ContentType "application/pdf".toList = false) ∨
    r.Body.length = 0

/-- The media type of a `Content-Type` header: the text before its parameters. -/
def mediaType (contentType : GoString) : GoString :=
  contentType.takeWhile (fun c => c != ';')

/-- A state with no file and no request sent. -/
def emptyState : State := { fs := fun _ => none, requests := [] }

/-- A world whose server answers every request with status 200, the header
`Content-Type: text/html; a=application/pdf` and a one-byte body, and whose
operating system refuses nothing. -/
def htmlWorld : World where
  unicodeLower := id
  otherAuthority := fun _ => none
  parseRequestURI := fun _ => true
  join := fun d f => d ++ f
  httpGet := fun _ _ =>
    some { StatusCode := 200, ContentType := "text/html; a=application/pdf".toList,
           Body := ['x'], readErr := false }
  mkdirOk := fun _ _ => true
  removeOk := fun _ _ => true
  openOk := fun _ _ => true
  createOk := fun _ _ => true
  writeErr := fun _ _ => none

/-- A world whose server answers every request with status 404, the header
`Content-Type: text/html` and a one-byte body. -/
def plainHtmlWorld : World where
  unicodeLower := id
  otherAuthority := fun _ => none
  parseRequestURI := fun _ => true
  join := fun d f => d ++ f
  httpGet := fun _ _ =>
    some { StatusCode := 404, ContentType := "text/html".toList, Body := ['x'], readErr := false }
  mkdirOk := fun _ _ => true
  removeOk := fun _ _ => true
  openOk := fun _ _ => true
  createOk := fun _ _ => true
  writeErr := fun _ _ => none

/-- A world in which every request ends in a network error. -/
def offlineWorld : World where
  unicodeLower := id
  otherAuthority := fun _ => none
  parseRequestURI := fun _ => true
  join := fun d f => d ++ f
  httpGet := fun _ _ => none
  mkdirOk := fun _ _ => true
  removeOk := fun _ _ => true
  openOk := fun _ _ => true
  createOk := fun _ _ => true
  writeErr := fun _ _ => none

/-- A state whose output directory already holds `file.pdf`. -/
def stateWithFile : State where
  fs := fun p => if p = "PDFs/file.pdf".toList then some (FileNode.file ['x']) else none
  requests := []

/-! ## Links at the head of a text -/

/-- The value ends in `.pdf` and has at least one rune before it. -/
def keepStrict (v : GoString) : Bool := endsInPdf v && decide (4 < v.length)

/-- The text is `href="v"` followed by `rest`, with `v = w ++ ".pdf"`, `w` non-empty
and `v` without a double quote. -/
def StartsWithLink (s w rest : GoString) : Prop :=
  w ≠ [] ∧ '"' ∉ w ∧
    s = 'h' :: 'r' :: 'e' :: 'f' :: '=' :: '"' :: (w ++ '.' :: 'p' :: 'd' :: 'f' :: '"' :: rest)

/-! ## Lemmas on the string functions -/

theorem removeScan_drop (old : GoString) :
    ∀ (k : Nat) (s : GoString), removeScan old k s = removeScan old 0 (s.drop k)
  | 0, s => by simp
  | _ + 1, [] => by simp [removeScan]
  | k + 1, _ :: cs => by simp [removeScan, removeScan_drop old k cs]

theorem removeScan_cons (o : Char) (os : GoString) (c : Char) (cs : GoString) :
    removeScan (o :: os) 0 (c :: cs) =
      if (o :: os).isPrefixOf (c :: cs) then removeScan (o :: os) 0 (cs.drop os.length)
      else c :: removeScan (o :: os) 0 cs := by
  rw [removeScan]
  split
  · rw [removeScan_drop]; simp
  · rfl

theorem mem_removeScan (old : GoString) (x : Char) :
    ∀ (s : GoString) (k : Nat), x ∈ removeScan old k s → x ∈ s
  | [], _ => by simp [removeScan]
  | _ :: cs, k + 1 => by
    intro h
    rw [removeScan] at h
    exact List.mem_cons_of_mem _ (mem_removeScan old x cs k h)
  | c :: cs, 0 => by
    intro h
    rw [removeScan] at h
    split at h
    · exact List.mem_cons_of_mem _ (mem_removeScan old x cs _ h)
    · rcases List.mem_cons.1 h with h | h
      · exact h ▸ List.mem_cons_self _ _
      · exact List.mem_cons_of_mem _ (mem_removeScan old x cs 0 h)

theorem removeScan_head (os : GoString) (c : Char) (cs : GoString) (h : c ≠ '_') :
    removeScan ('_' :: os) 0 (c :: cs) = c :: removeScan ('_' :: os) 0 cs := by
  rw [removeScan_cons]
  have : List.isPrefixOf ('_' :: os) (c :: cs) = false := by
    simp [List.isPrefixOf, Ne.symm h]
  simp [this]

theorem removeScan_noDouble (os : GoString) :
    ∀ (n : Nat) (s : GoString), s.length ≤ n → NoDouble s →
      NoDouble (removeScan ('_' :: os) 0 s) := by
  intro n
  induction n with
  | zero =>
    intro s hs _
    have : s = [] := List.length_eq_zero.1 (Nat.le_zero.1 hs)
    subst this; simp [removeScan, NoDouble]
  | succ n ih =>
    intro s hs hc
    match s, hs, hc with
    | [], _, _ => simp [removeScan, NoDouble]
    | c :: cs, hs, hc =>
      have hlen : cs.length ≤ n := by simpa using hs
      rw [removeScan_cons]
      split
      · exact ih _ (by simp; omega) (List.Chain'.drop (List.Chain'.tail hc) _)
      · have hcs : NoDouble cs := List.Chain'.tail hc
        have key := ih cs hlen hcs
        unfold NoDouble at *
        rw [List.chain'_cons']
        refine ⟨?_, key⟩
        intro y hy
        rintro ⟨hc1, hy1⟩
        subst hc1 hy1
        match cs, hc, hy with
        | [], _, hy => simp [removeScan] at hy
        | d :: ds, hc, hy =>
          have hd : d ≠ '_' := fun e => (List.chain'_cons.1 hc).1 ⟨rfl, e⟩
          rw [removeScan_head os d ds hd] at hy
          simp at hy
          exact hd hy

theorem removeScan_getLast (os : GoString) :
    ∀ (n : Nat) (s : GoString), s.length ≤ n → NoDouble s → s.getLast? ≠ some '_' →
      (removeScan ('_' :: os) 0 s).getLast? ≠ some '_' := by
  intro n
  induction n with
  | zero =>
    intro s hs _ _
    have : s = [] := List.length_eq_zero.1 (Nat.le_zero.1 hs)
    subst this; simp [removeScan]
  | succ n ih =>
    intro s hs hc hl
    match s, hs, hc, hl with
    | [], _, _, _ => simp [removeScan]
    | c :: cs, hs, hc, hl =>
      have hlen : cs.length ≤ n := by simpa using hs
      have hcs : NoDouble cs := List.Chain'.tail hc
      rw [removeScan_cons]
      split
      · refine ih _ (by simp; omega) (List.Chain'.drop hcs _) ?_
        intro h
        apply hl
        have hne : cs.drop os.length ≠ [] := by
          intro e; rw [e] at h; simp at h
        have hsuf : cs.drop os.length <:+ c :: cs :=
          (List.drop_suffix _ _).trans (List.suffix_cons _ _)
        obtain ⟨t, ht⟩ := hsuf
        rw [← ht, List.getLast?_append_of_ne_nil _ hne]
        exact h
      · match cs, hlen, hcs, hc, hl with
        | [], _, _, _, hl => simpa [removeScan] using hl
        | d :: ds, hlen, hcs, hc, hl =>
          have hl2 : (d :: ds).getLast? ≠ some '_' := by
            simpa [List.getLast?_cons_cons] using hl
          have key := ih (d :: ds) hlen hcs hl2
          by_cases hd : d = '_'
          · subst hd
            have hcne : c ≠ '_' := fun e => (List.chain'_cons.1 hc).1 ⟨e, rfl⟩
            intro h
            rcases hr : removeScan ('_' :: os) 0 ('_' :: ds) with _ | ⟨e, es⟩
            · rw [hr] at h; simp at h; exact hcne h
            · rw [hr] at h key
              rw [List.getLast?_cons_cons] at h
              exact key h
          · rw [removeScan_head os d ds hd] at key ⊢
            rw [List.getLast?_cons_cons]
            exact key

theorem collapseRuns_spec :
    ∀ (s : GoString) (b : Bool),
      NoDouble (collapseRuns b s) ∧ (b = true → (collapseRuns b s).head? ≠ some '_')
  | [], b => by simp [collapseRuns, NoDouble]
  | c :: cs, b => by
    have ht := collapseRuns_spec cs true
    have hf := collapseRuns_spec cs false
    rw [collapseRuns]
    by_cases hc : c = '_'
    · rw [if_pos hc]
      cases b with
      | true => simpa using ht
      | false =>
        refine ⟨?_, by simp⟩
        unfold NoDouble at *
        simp only [Bool.false_eq_true, if_false]
        rw [List.chain'_cons']
        refine ⟨?_, ht.1⟩
        intro y hy hyy
        exact ht.2 rfl (by rw [Option.mem_def.1 hy, hyy.2])
    · rw [if_neg hc]
      refine ⟨?_, fun _ => by simpa using hc⟩
      unfold NoDouble at *
      rw [List.chain'_cons']
      exact ⟨fun y _ hyy => hc hyy.1, hf.1⟩

theorem mem_collapseRuns (x : Char) :
    ∀ (s : GoString) (b : Bool), x ∈ collapseRuns b s → x ∈ s
  | [], _ => by simp [collapseRuns]
  | c :: cs, b => by
    intro h
    rw [collapseRuns] at h
    split at h
    · split at h
      · exact List.mem_cons_of_mem _ (mem_collapseRuns x cs _ h)
      · rcases List.mem_cons.1 h with h | h
        · subst h; simp_all
        · exact List.mem_cons_of_mem _ (mem_collapseRuns x cs _ h)
    · rcases List.mem_cons.1 h with h | h
      · exact h ▸ List.mem_cons_self _ _
      · exact List.mem_cons_of_mem _ (mem_collapseRuns x cs _ h)

theorem mem_collapseRuns_of_ne (x : Char) (hx : x ≠ '_') :
    ∀ (s : GoString) (b : Bool), x ∈ s → x ∈ collapseRuns b s
  | [], _ => by simp
  | c :: cs, b => by
    intro h
    rw [collapseRuns]
    rcases List.mem_cons.1 h with h | h
    · subst h; simp [hx]
    · have := fun b => mem_collapseRuns_of_ne x hx cs b h
      split
      · split
        · exact this _
        · exact List.mem_cons_of_mem _ (this _)
      · exact List.mem_cons_of_mem _ (this _)

theorem stringsTrim_underscore (s : GoString) :
    stringsTrim s ['_'] =
      ((s.dropWhile (fun c => c == '_')).reverse.dropWhile (fun c => c == '_')).reverse := by
  have : (fun c : Char => ['_'].contains c) = (fun c => c == '_') := by
    funext c; cases h : c == '_' <;> simp [List.contains, List.elem, h]
  simp only [stringsTrim, this]

theorem stringsTrim_substring (s cutset : GoString) : stringsTrim s cutset <:+: s := by
  unfold stringsTrim
  have h1 := List.dropWhile_suffix (l := s) (fun c => cutset.contains c)
  have h2 := List.dropWhile_suffix
    (l := (s.dropWhile (fun c => cutset.contains c)).reverse) (fun c => cutset.contains c)
  have h3 := List.reverse_prefix.2 h2
  rw [List.reverse_reverse] at h3
  exact h3.isInfix.trans h1.isInfix

theorem stringsTrim_getLast (s : GoString) : (stringsTrim s ['_']).getLast? ≠ some '_' := by
  rw [stringsTrim_underscore, List.getLast?_reverse]
  intro h
  have := List.head?_dropWhile_not (fun c => c == '_')
    (s.dropWhile (fun c => c == '_')).reverse
  rw [h] at this
  simp at this

theorem stringsTrim_head (s : GoString) : (stringsTrim s ['_']).head? ≠ some '_' := by
  rw [stringsTrim_underscore]
  intro h
  have h2 := List.dropWhile_suffix
    (l := (s.dropWhile (fun c => c == '_')).reverse) (fun c => c == '_')
  have h3 := List.reverse_prefix.2 h2
  rw [List.reverse_reverse] at h3
  obtain ⟨t, ht⟩ := h3
  have hd := List.head?_dropWhile_not (fun c => c == '_') s
  rw [← ht] at hd
  generalize ((s.dropWhile (fun c => c == '_')).reverse.dropWhile (fun c => c == '_')).reverse = r
    at h hd
  cases r with
  | nil => simp at h
  | cons a r => simp at h; subst h; simp at hd

theorem stringsTrim_eq_nil (s : GoString) :
    stringsTrim s ['_'] = [] ↔ ∀ c ∈ s, c = '_' := by
  rw [stringsTrim_underscore]
  constructor
  · intro h
    have h1 : (s.dropWhile (fun c => c == '_')).reverse.dropWhile (fun c => c == '_') = [] := by
      simpa using h
    rw [List.dropWhile_eq_nil_iff] at h1
    have hd := List.head?_dropWhile_not (fun c => c == '_') s
    have h2 : s.dropWhile (fun c => c == '_') = [] := by
      cases hr : s.dropWhile (fun c => c == '_') with
      | nil => rfl
      | cons a r =>
        rw [hr] at hd h1
        have := h1 a (by simp)
        simp at hd
        simp at this
        exact absurd this hd
    rw [List.dropWhile_eq_nil_iff] at h2
    intro c hc
    simpa using h2 c hc
  · intro h
    have h2 : s.dropWhile (fun c => c == '_') = [] := by
      rw [List.dropWhile_eq_nil_iff]
      intro c hc
      simpa using h c hc
    simp [h2]

theorem drop_length_takeWhile (q : Char → Bool) :
    ∀ l : GoString, l.drop (l.takeWhile q).length = l.dropWhile q
  | [] => rfl
  | c :: cs => by
    by_cases h : q c = true
    · simp [List.takeWhile, List.dropWhile, h, drop_length_takeWhile q cs]
    · simp [List.takeWhile, List.dropWhile, h]

theorem filepathExt_eq_nil (s : GoString) (h : '.' ∉ s) : filepathExt s = [] := by
  unfold filepathExt
  simp only [drop_length_takeWhile]
  split
  · rename_i heq
    have hs := List.dropWhile_suffix (l := s.reverse) (fun c => c != '/' && c != '.')
    rw [heq] at hs
    have : '.' ∈ s.reverse := hs.subset (List.mem_cons_self _ _)
    exact absurd (List.mem_reverse.1 this) h
  · rfl

/-! ## Lemmas on the stem of `urlToFilename` -/

theorem safeStem_eq (t : Char → Char) (u : GoString) :
    safeStem t u = removeScan ['_', 'p', 'd', 'f'] 0 (trimmedName t u) := by
  simp [safeStem, trimmedName, invalidSubstrings, removeSubstring]

theorem isLowerAlnum_underscore : isLowerAlnum '_' = false := by decide

theorem okChar_replaceNonAlnum (s : GoString) : ∀ c ∈ replaceNonAlnum s, okChar c := by
  intro c hc
  unfold replaceNonAlnum at hc
  obtain ⟨a, _, rfl⟩ := List.mem_map.1 hc
  by_cases h : isLowerAlnum a = true
  · simp [h, okChar]
  · simp [h, okChar]

theorem okChar_trimmedName (t : Char → Char) (u : GoString) :
    ∀ c ∈ trimmedName t u, okChar c := by
  intro c hc
  exact okChar_replaceNonAlnum _ c
    (mem_collapseRuns c _ _ ((stringsTrim_substring _ _).subset hc))

theorem okChar_safeStem (t : Char → Char) (u : GoString) : ∀ c ∈ safeStem t u, okChar c := by
  intro c hc
  rw [safeStem_eq] at hc
  exact okChar_trimmedName t u c (mem_removeScan _ c _ _ hc)

theorem noDouble_trimmedName (t : Char → Char) (u : GoString) : NoDouble (trimmedName t u) :=
  List.Chain'.infix (collapseRuns_spec _ false).1 (stringsTrim_substring _ _)

theorem noDouble_safeStem (t : Char → Char) (u : GoString) : NoDouble (safeStem t u) := by
  rw [safeStem_eq]
  exact removeScan_noDouble _ _ _ (Nat.le_refl _) (noDouble_trimmedName t u)

theorem getLast_safeStem (t : Char → Char) (u : GoString) :
    (safeStem t u).getLast? ≠ some '_' := by
  rw [safeStem_eq]
  exact removeScan_getLast _ _ _ (Nat.le_refl _) (noDouble_trimmedName t u)
    (stringsTrim_getLast _)

theorem removeScan_head_eq (os s : GoString) (h : s.head? ≠ some '_') :
    (removeScan ('_' :: os) 0 s).head? = s.head? := by
  cases s with
  | nil => simp [removeScan]
  | cons c cs =>
    have hc : c ≠ '_' := by simpa using h
    rw [removeScan_head os c cs hc]
    simp

theorem head_safeStem (t : Char → Char) (u : GoString) :
    (safeStem t u).head? ≠ some '_' := by
  have h : (trimmedName t u).head? ≠ some '_' := stringsTrim_head _
  rw [safeStem_eq, removeScan_head_eq _ _ h]
  exact h

theorem safeStem_eq_nil_iff (t : Char → Char) (u : GoString) :
    safeStem t u = [] ↔
      ∀ c ∈ getFilename (stringsToLower t u), isLowerAlnum c = false := by
  have h1 : safeStem t u = [] ↔ trimmedName t u = [] := by
    rw [safeStem_eq]
    constructor
    · intro h
      have h0 : (trimmedName t u).head? ≠ some '_' := stringsTrim_head _
      have := removeScan_head_eq ['p', 'd', 'f'] (trimmedName t u) h0
      rw [h] at this
      cases hr : trimmedName t u with
      | nil => rfl
      | cons a r => rw [hr] at this; simp at this
    · intro h; rw [h]; rfl
  rw [h1, trimmedName, stringsTrim_eq_nil]
  constructor
  · intro h c hc
    by_contra hne
    have hne2 : isLowerAlnum c = true := by simpa using hne
    have hcu : c ≠ '_' := fun e => by rw [e, isLowerAlnum_underscore] at hne2; cases hne2
    have hm : c ∈ replaceNonAlnum (getFilename (stringsToLower t u)) := by
      unfold replaceNonAlnum
      exact List.mem_map.2 ⟨c, hc, by simp [hne2]⟩
    exact hcu (h c (mem_collapseRuns_of_ne c hcu _ _ hm))
  · intro h c hc
    have hm := mem_collapseRuns c _ _ hc
    unfold replaceNonAlnum at hm
    obtain ⟨a, ha, rfl⟩ := List.mem_map.1 hm
    simp [h a ha]

theorem not_okChar_dot : ¬ okChar '.' := by
  unfold okChar; decide

theorem urlToFilename_eq (t : Char → Char) (u : GoString) :
    urlToFilename t u = safeStem t u ++ ['.', 'p', 'd', 'f'] := by
  have hdot : '.' ∉ safeStem t u := fun h => not_okChar_dot (okChar_safeStem t u _ h)
  simp [urlToFilename, getFileExtension, filepathExt_eq_nil _ hdot]

theorem stringsToLower_ascii (t t' : Char → Char) (u : GoString)
    (h : ∀ c ∈ u, c.toNat < 128) : stringsToLower t u = stringsToLower t' u := by
  unfold stringsToLower
  apply List.map_congr_left
  intro c hc
  simp [toLowerRune, h c hc]

theorem urlToFilename_ascii (t t' : Char → Char) (u : GoString)
    (h : ∀ c ∈ u, c.toNat < 128) : urlToFilename t u = urlToFilename t' u := by
  simp only [urlToFilename, safeStem, stringsToLower_ascii t t' u h]

/-! ## Names made of ASCII letters and digits -/

theorem isAsciiAlnum_lt (c : Char) (h : isAsciiAlnum c = true) : c.toNat < 128 := by
  simp [isAsciiAlnum, isLowerAlnum] at h
  omega

theorem isLowerAlnum_toLower (c : Char) (h : isAsciiAlnum c = true) :
    isLowerAlnum c.toLower = true := by
  by_cases hu : 65 ≤ c.toNat ∧ c.toNat ≤ 90
  · have hc : c = Char.ofNat c.toNat := (Char.ofNat_toNat c).symm
    obtain ⟨h1, h2⟩ := hu
    generalize c.toNat = n at hc h1 h2
    subst hc
    interval_cases n <;> decide
  · have : c.toLower = c := by
      unfold Char.toLower
      simp only [ge_iff_le]
      rw [if_neg hu]
    rw [this]
    simp [isAsciiAlnum] at h
    rcases h with h | h
    · exact h
    · exact absurd h hu

theorem toLower_lt (c : Char) (h : c.toLower.toNat < 128) : c.toNat < 128 := by
  by_cases hu : 65 ≤ c.toNat ∧ c.toNat ≤ 90
  · omega
  · have : c.toLower = c := by
      unfold Char.toLower
      simp only [ge_iff_le]
      rw [if_neg hu]
    rw [this] at h
    exact h

theorem isLowerAlnum_ne_underscore (c : Char) (h : isLowerAlnum c = true) : c ≠ '_' := by
  intro e; rw [e, isLowerAlnum_underscore] at h; cases h

theorem isLowerAlnum_ne_slash (c : Char) (h : isLowerAlnum c = true) : c ≠ '/' := by
  intro e; subst e; revert h; decide

theorem dropWhile_head_ne (x a : Char) (l : GoString) (h : a ≠ x) :
    (a :: l).dropWhile (fun c => c == x) = a :: l := by
  rw [List.dropWhile_cons]
  simp [h]

theorem filepathBase_append (pre seg : GoString) (hne : seg ≠ []) (hs : '/' ∉ seg) :
    filepathBase (pre ++ '/' :: seg) = seg := by
  have hrev : (pre ++ '/' :: seg).reverse = seg.reverse ++ '/' :: pre.reverse := by simp
  have hall : ∀ a ∈ seg.reverse, (fun c : Char => c != '/') a = true := by
    intro a ha
    have : a ≠ '/' := fun e => hs (e ▸ List.mem_reverse.1 ha)
    simpa using this
  have hdrop : (seg.reverse ++ '/' :: pre.reverse).dropWhile (fun c => c == '/') =
      seg.reverse ++ '/' :: pre.reverse := by
    cases hr : seg.reverse with
    | nil => exact absurd (List.reverse_eq_nil_iff.1 hr) hne
    | cons a r =>
      have : a ≠ '/' := fun e => hs (List.mem_reverse.1 (by rw [hr, e]; exact List.mem_cons_self _ _))
      exact dropWhile_head_ne _ _ _ this
  have htake : (seg.reverse ++ '/' :: pre.reverse).takeWhile (fun c => c != '/') =
      seg.reverse := by
    rw [List.takeWhile_append_of_pos hall]
    simp
  unfold filepathBase
  simp only [hrev, hdrop, List.reverse_reverse, htake]
  simp [hne]

theorem collapseRuns_alnum_append (tail : GoString)
    (ht : collapseRuns false tail = tail) :
    ∀ name : GoString, (∀ c ∈ name, c ≠ '_') →
      collapseRuns false (name ++ tail) = name ++ tail
  | [], _ => by simpa using ht
  | c :: cs, h => by
    have hc : c ≠ '_' := h c (List.mem_cons_self _ _)
    have ih := collapseRuns_alnum_append tail ht cs
      (fun x hx => h x (List.mem_cons_of_mem _ hx))
    simp [collapseRuns, hc, ih]

theorem removeScan_alnum_append (os tail : GoString) :
    ∀ name : GoString, (∀ c ∈ name, c ≠ '_') →
      removeScan ('_' :: os) 0 (name ++ tail) = name ++ removeScan ('_' :: os) 0 tail
  | [], _ => by simp
  | c :: cs, h => by
    have hc : c ≠ '_' := h c (List.mem_cons_self _ _)
    have ih := removeScan_alnum_append os tail cs
      (fun x hx => h x (List.mem_cons_of_mem _ hx))
    rw [List.cons_append, removeScan_head os c _ hc, ih]
    rfl

theorem stringsTrim_id (s : GoString) (hh : s.head? ≠ some '_')
    (hl : s.getLast? ≠ some '_') : stringsTrim s ['_'] = s := by
  rw [stringsTrim_underscore]
  have h1 : s.dropWhile (fun c => c == '_') = s := by
    cases s with
    | nil => rfl
    | cons a r =>
      have : a ≠ '_' := by simpa using hh
      exact dropWhile_head_ne _ _ _ this
  rw [h1]
  have h2 : s.reverse.dropWhile (fun c => c == '_') = s.reverse := by
    cases hr : s.reverse with
    | nil => rfl
    | cons a r =>
      have : s.reverse.head? ≠ some '_' := by rw [List.head?_reverse]; exact hl
      rw [hr] at this
      have : a ≠ '_' := by simpa using this
      exact dropWhile_head_ne _ _ _ this
  rw [h2, List.reverse_reverse]

theorem stringsToLower_name (t : Char → Char) (name : GoString)
    (h : ∀ c ∈ name, isAsciiAlnum c = true) :
    stringsToLower t name = name.map Char.toLower := by
  unfold stringsToLower
  apply List.map_congr_left
  intro c hc
  simp [toLowerRune, isAsciiAlnum_lt c (h c hc)]

theorem stringsToLower_ext (t : Char → Char) (ext : GoString)
    (h : ext.map Char.toLower = ['p', 'd', 'f']) :
    stringsToLower t ext = ['p', 'd', 'f'] := by
  rw [← h]
  unfold stringsToLower
  apply List.map_congr_left
  intro c hc
  have hm : c.toLower ∈ ext.map Char.toLower := List.mem_map.2 ⟨c, hc, rfl⟩
  rw [h] at hm
  have hlt : c.toLower.toNat < 128 := by
    simp only [List.mem_cons, List.mem_singleton, List.not_mem_nil, or_false] at hm
    rcases hm with e | e | e <;> rw [e] <;> decide
  simp [toLowerRune, toLower_lt c hlt]

theorem trimmedName_alnum_pdf (t : Char → Char) (pre name ext : GoString)
    (hne : name ≠ []) (hname : ∀ c ∈ name, isAsciiAlnum c = true)
    (hext : ext.map Char.toLower = ['p', 'd', 'f']) :
    trimmedName t (pre ++ '/' :: (name ++ '.' :: ext)) =
      name.map Char.toLower ++ ['_', 'p', 'd', 'f'] := by
  have hl : ∀ c ∈ name.map Char.toLower, isLowerAlnum c = true := by
    intro c hc
    obtain ⟨a, ha, rfl⟩ := List.mem_map.1 hc
    exact isLowerAlnum_toLower a (hname a ha)
  have hlne : name.map Char.toLower ≠ [] := by simpa using hne
  have hlow : stringsToLower t (pre ++ '/' :: (name ++ '.' :: ext)) =
      stringsToLower t pre ++ '/' :: (name.map Char.toLower ++ ['.', 'p', 'd', 'f']) := by
    have h1 := stringsToLower_name t name hname
    have h2 := stringsToLower_ext t ext hext
    have h3 : toLowerRune t '/' = '/' := by
      have a : ('/' : Char).toNat < 128 := by decide
      have b : ('/' : Char).toLower = '/' := by decide
      simp [toLowerRune, a, b]
    have h4 : toLowerRune t '.' = '.' := by
      have a : ('.' : Char).toNat < 128 := by decide
      have b : ('.' : Char).toLower = '.' := by decide
      simp [toLowerRune, a, b]
    unfold stringsToLower at *
    simp [List.map_append, h1, h2, h3, h4]
  have hslash : '/' ∉ name.map Char.toLower ++ ['.', 'p', 'd', 'f'] := by
    intro hm
    rcases List.mem_append.1 hm with hm | hm
    · exact isLowerAlnum_ne_slash _ (hl _ hm) rfl
    · revert hm; decide
  have hbase : getFilename (stringsToLower t (pre ++ '/' :: (name ++ '.' :: ext))) =
      name.map Char.toLower ++ ['.', 'p', 'd', 'f'] := by
    rw [hlow, getFilename, filepathBase_append _ _ (by simp [hne]) hslash]
  have hrep : replaceNonAlnum (name.map Char.toLower ++ ['.', 'p', 'd', 'f']) =
      name.map Char.toLower ++ ['_', 'p', 'd', 'f'] := by
    unfold replaceNonAlnum
    rw [List.map_append]
    congr 1
    conv_rhs => rw [← List.map_id (name.map Char.toLower)]
    apply List.map_congr_left
    intro c hc
    simp [hl c hc]
  have hnu : ∀ c ∈ name.map Char.toLower, c ≠ '_' :=
    fun c hc => isLowerAlnum_ne_underscore c (hl c hc)
  have hcol : collapseRuns false (name.map Char.toLower ++ ['_', 'p', 'd', 'f']) =
      name.map Char.toLower ++ ['_', 'p', 'd', 'f'] :=
    collapseRuns_alnum_append _ (by decide) _ hnu
  unfold trimmedName
  rw [hbase, hrep, hcol]
  apply stringsTrim_id
  · cases hm : name.map Char.toLower with
    | nil => exact absurd hm hlne
    | cons a r =>
      have : a ≠ '_' := hnu a (by rw [hm]; exact List.mem_cons_self _ _)
      simpa using this
  · rw [List.getLast?_append]
    simp

/-! ## Claims on `urlToFilename` -/

/-- C1 (as amended): for every URL string, `urlToFilename` returns a stem of runes
from `a-z`, `0-9` and `_` (so without a dot) followed by the single suffix `.pdf`;
the stem is non-empty exactly when the final path segment of the lowercased URL
contains a rune of the ranges `a-z` and `0-9`. -/
theorem urlToFilename_stem_pdf (unicodeLower : Char → Char) (u : GoString) :
    ∃ stem : GoString,
      urlToFilename unicodeLower u = stem ++ ['.', 'p', 'd', 'f'] ∧
      (∀ c ∈ stem, isLowerAlnum c = true ∨ c = '_') ∧ '.' ∉ stem ∧
      (stem ≠ [] ↔
        ∃ c ∈ getFilename (stringsToLower unicodeLower u), isLowerAlnum c = true) := by
  refine ⟨safeStem unicodeLower u, urlToFilename_eq _ _, okChar_safeStem _ _,
    fun h => not_okChar_dot (okChar_safeStem _ _ _ h), ?_⟩
  rw [Ne, safeStem_eq_nil_iff]
  simp

/-- C1 (as stated) fails at the empty URL: whatever the Unicode case table,
`urlToFilename ""` is `.pdf`, whose stem is empty, so it does not match
`^[a-z0-9_]+\.pdf$`. -/
theorem urlToFilename_empty_not_pattern :
    ¬ ∃ unicodeLower : Char → Char, MatchesSafePattern (urlToFilename unicodeLower []) := by
  rintro ⟨t, stem, hne, _, h⟩
  have he : urlToFilename t [] = ['.', 'p', 'd', 'f'] := by
    rw [urlToFilename_ascii t id [] (by simp)]
    decide
  rw [he] at h
  have hl := congrArg List.length h
  simp only [List.length_append, List.length_cons, List.length_nil] at hl
  exact hne (List.length_eq_zero.1 (by omega))

/-- C2: for every URL string, the result of `urlToFilename` has no leading
underscore, no trailing underscore, no underscore immediately before the `.pdf`
extension and no two consecutive underscores. -/
theorem urlToFilename_underscores (unicodeLower : Char → Char) (u : GoString) :
    (urlToFilename unicodeLower u).head? ≠ some '_' ∧
    (urlToFilename unicodeLower u).getLast? ≠ some '_' ∧
    ¬ (['_', '.', 'p', 'd', 'f'] <:+ urlToFilename unicodeLower u) ∧
    ¬ (['_', '_'] <:+: urlToFilename unicodeLower u) := by
  have hh := head_safeStem unicodeLower u
  have hl := getLast_safeStem unicodeLower u
  have hd := noDouble_safeStem unicodeLower u
  rw [urlToFilename_eq]
  generalize safeStem unicodeLower u = stem at hh hl hd
  refine ⟨?_, ?_, ?_, ?_⟩
  · cases stem with
    | nil => simp
    | cons a r => simpa using hh
  · rw [List.getLast?_append]; simp
  · rintro ⟨a, ha⟩
    have e : a ++ ['_'] ++ ['.', 'p', 'd', 'f'] = stem ++ ['.', 'p', 'd', 'f'] := by
      simpa using ha
    have e2 := List.append_cancel_right e
    apply hl
    rw [← e2]
    simp
  · intro hin
    have hc : NoDouble (stem ++ ['.', 'p', 'd', 'f']) := by
      unfold NoDouble at *
      rw [List.chain'_append]
      refine ⟨hd, by simp, ?_⟩
      intro x _ y hy hxy
      simp at hy
      rw [← hy] at hxy
      exact absurd hxy.2 (by decide)
    have := List.Chain'.infix hc hin
    simp [NoDouble] at this

/-- C4: a URL whose final path segment is a non-empty name of ASCII letters and
digits followed by `.pdf` in any letter case yields the lowercased name
followed by `.pdf`, whatever precedes the last slash. -/
theorem urlToFilename_alnum_pdf (unicodeLower : Char → Char) (pre name ext : GoString)
    (hne : name ≠ []) (hname : ∀ c ∈ name, isAsciiAlnum c = true)
    (hext : ext.map Char.toLower = ['p', 'd', 'f']) :
    urlToFilename unicodeLower (pre ++ '/' :: (name ++ '.' :: ext)) =
      name.map Char.toLower ++ ['.', 'p', 'd', 'f'] := by
  have hl : ∀ c ∈ name.map Char.toLower, c ≠ '_' := by
    intro c hc
    obtain ⟨a, ha, rfl⟩ := List.mem_map.1 hc
    exact isLowerAlnum_ne_underscore _ (isLowerAlnum_toLower a (hname a ha))
  rw [urlToFilename_eq, safeStem_eq, trimmedName_alnum_pdf _ _ _ _ hne hname hext,
    removeScan_alnum_append _ _ _ hl]
  have : removeScan ['_', 'p', 'd', 'f'] 0 ['_', 'p', 'd', 'f'] = [] := by decide
  rw [this, List.append_nil]

/-- C4, the example of the specification: the relative link `/docs/file.PDF` under the
origin `https://example.com` yields `file.pdf`. -/
theorem urlToFilename_alnum_pdf_witness :
    urlToFilename id "https://example.com/docs/file.PDF".toList = "file.pdf".toList :=
  urlToFilename_alnum_pdf id "https://example.com/docs".toList "file".toList "PDF".toList
    (by decide) (by decide) (by decide)

/-! ## Occurrences of `pdf` -/

theorem removeDuplicates_loop (xs : List GoString) :
    ∀ (check : GoString → Bool) (acc before : List GoString),
      (∀ k, check k = true ↔ k ∈ before) →
      (xs.foldl
        (fun (st : (GoString → Bool) × List GoString) content =>
          if !st.1 content then
            (fun k => if k = content then true else st.1 k, st.2 ++ [content])
          else st)
        (check, acc)).2 = acc ++ firstOccurrencesFrom before xs := by
  induction xs with
  | nil => intro check acc before _; simp [firstOccurrencesFrom]
  | cons x xs ih =>
    intro check acc before h
    rw [List.foldl_cons, firstOccurrencesFrom]
    by_cases hx : x ∈ before
    · have hc : check x = true := (h x).2 hx
      simp only [hc, Bool.not_true, Bool.false_eq_true, if_false, if_pos hx]
      apply ih
      intro k
      rw [h k]
      constructor
      · exact fun hk => List.mem_append_left _ hk
      · intro hk
        rcases List.mem_append.1 hk with hk | hk
        · exact hk
        · rw [List.mem_singleton.1 hk]; exact hx
    · have hc : check x = false := by
        cases hcx : check x with
        | false => rfl
        | true => exact absurd ((h x).1 hcx) hx
      simp only [hc, Bool.not_false, if_true, if_neg hx]
      rw [ih _ _ (before ++ [x])]
      · simp
      · intro k
        by_cases hk : k = x
        · simp [hk]
        · simp [hk, h k]

theorem removeDuplicates_eq (xs : List GoString) :
    removeDuplicatesFromSlice xs = firstOccurrences xs := by
  unfold removeDuplicatesFromSlice firstOccurrences
  rw [removeDuplicates_loop xs (fun _ => false) [] [] (by simp)]
  simp

theorem mem_firstOccurrencesFrom (s : GoString) :
    ∀ (xs before : List GoString),
      s ∈ firstOccurrencesFrom before xs ↔ s ∈ xs ∧ s ∉ before
  | [], _ => by simp [firstOccurrencesFrom]
  | x :: xs, before => by
    rw [firstOccurrencesFrom]
    by_cases hx : x ∈ before
    · rw [if_pos hx, mem_firstOccurrencesFrom s xs]
      simp only [List.mem_append, List.mem_cons, List.not_mem_nil, or_false, not_or]
      constructor
      · rintro ⟨h1, h2, _⟩; exact ⟨Or.inr h1, h2⟩
      · rintro ⟨h1 | h1, h2⟩
        · exact absurd (h1 ▸ hx) h2
        · exact ⟨h1, h2, fun e => h2 (e ▸ hx)⟩
    · rw [if_neg hx, List.mem_cons, mem_firstOccurrencesFrom s xs]
      simp only [List.mem_append, List.mem_cons, List.not_mem_nil, or_false, not_or]
      constructor
      · rintro (h | ⟨h1, h2, _⟩)
        · exact ⟨Or.inl h, h ▸ hx⟩
        · exact ⟨Or.inr h1, h2⟩
      · rintro ⟨h1 | h1, h2⟩
        · exact Or.inl h1
        · by_cases e : s = x
          · exact Or.inl e
          · exact Or.inr ⟨h1, h2, e⟩

theorem nodup_firstOccurrencesFrom :
    ∀ (xs before : List GoString), (firstOccurrencesFrom before xs).Nodup
  | [], _ => by simp [firstOccurrencesFrom]
  | x :: xs, before => by
    rw [firstOccurrencesFrom]
    split
    · exact nodup_firstOccurrencesFrom xs _
    · rw [List.nodup_cons]
      refine ⟨?_, nodup_firstOccurrencesFrom xs _⟩
      rw [mem_firstOccurrencesFrom]
      simp

theorem sublist_firstOccurrencesFrom :
    ∀ (xs before : List GoString), (firstOccurrencesFrom before xs).Sublist xs
  | [], _ => by simp [firstOccurrencesFrom]
  | x :: xs, before => by
    rw [firstOccurrencesFrom]
    split
    · exact (sublist_firstOccurrencesFrom xs _).cons _
    · exact (sublist_firstOccurrencesFrom xs _).cons₂ _

/-- C7: `removeDuplicatesFromSlice xs` contains no string twice, contains exactly
the strings of `xs`, and is the subsequence of `xs` made of each string's first
occurrence; on a page with `href="a.pdf"` twice, extraction followed by
de-duplication gives exactly `a.pdf`. -/
theorem removeDuplicatesFromSlice_first_occurrences (xs : List GoString) :
    (removeDuplicatesFromSlice xs).Nodup ∧
    (∀ s, s ∈ removeDuplicatesFromSlice xs ↔ s ∈ xs) ∧
    (removeDuplicatesFromSlice xs).Sublist xs ∧
    removeDuplicatesFromSlice xs = firstOccurrences xs ∧
    removeDuplicatesFromSlice
      (extractPDFUrls "<a href=\"a.pdf\">one</a> <a href=\"a.pdf\">two</a>".toList) =
        ["a.pdf".toList] := by
  refine ⟨?_, ?_, ?_, removeDuplicates_eq xs, by decide⟩
  · rw [removeDuplicates_eq]; exact nodup_firstOccurrencesFrom xs []
  · intro s; rw [removeDuplicates_eq, firstOccurrences, mem_firstOccurrencesFrom]; simp
  · rw [removeDuplicates_eq]; exact sublist_firstOccurrencesFrom xs []

/-! ## URL normalisation -/

theorem toLowerRune_fixed (t : Char → Char) (c : Char) (h1 : c.toNat < 128)
    (h2 : ¬ (65 ≤ c.toNat ∧ c.toNat ≤ 90)) : toLowerRune t c = c := by
  have : c.toLower = c := by
    unfold Char.toLower
    simp only [ge_iff_le]
    rw [if_neg h2]
  simp [toLowerRune, h1, this]

theorem stringsToLower_urlToFilename (t : Char → Char) (u : GoString) :
    stringsToLower t (urlToFilename t u) = urlToFilename t u := by
  unfold stringsToLower
  conv_rhs => rw [← List.map_id (urlToFilename t u)]
  apply List.map_congr_left
  intro c hc
  rw [urlToFilename_eq] at hc
  have hcases : (c.toNat < 128) ∧ ¬ (65 ≤ c.toNat ∧ c.toNat ≤ 90) := by
    rcases List.mem_append.1 hc with hc | hc
    · rcases okChar_safeStem t u c hc with h | h
      · simp [isLowerAlnum] at h; omega
      · subst h; decide
    · simp only [List.mem_cons, List.mem_singleton, List.not_mem_nil, or_false] at hc
      rcases hc with e | e | e | e <;> subst e <;> decide
  simpa using toLowerRune_fixed t c hcases.1 hcases.2

theorem set_self (fs : FS) (path : GoString) (node : Option FileNode) :
    fs.set path node path = node := by
  simp [FS.set]

theorem downloadPDF_true (w : World) (url dir : GoString) (st : State)
    (h : (downloadPDF w url dir st).1 = true) :
    ∃ body, (downloadPDF w url dir st).2.fs (w.join dir (urlToFilename w.unicodeLower url)) =
      some (FileNode.file body) := by
  revert h
  simp only [downloadPDF, stringsToLower_urlToFilename]
  repeat' split
  all_goals first
    | (intro h; simp at h; done)
    | (intro _; exact ⟨_, set_self _ _ _⟩)

theorem downloadPDF_exists (w : World) (url dir : GoString) (st : State)
    (h : fileExists st.fs (w.join dir (urlToFilename w.unicodeLower url)) = true) :
    downloadPDF w url dir st = (false, st) := by
  simp only [downloadPDF, stringsToLower_urlToFilename]
  rw [if_pos h]

/-- C5 (as amended): after a network error, a status other than 200, a `Content-Type`
that contains neither `application/pdf` nor `binary/octet-stream`, or an empty
body, `downloadPDF` reports failure and leaves every file as it was. -/
theorem downloadPDF_rejected (w : World) (url dir : GoString) (st : State)
    (h : Rejected (w.httpGet st.requests url)) :
    (downloadPDF w url dir st).1 = false ∧ (downloadPDF w url dir st).2.fs = st.fs := by
  revert h
  simp only [downloadPDF, stringsToLower_urlToFilename, Rejected]
  repeat' split
  all_goals first
    | (intro _; exact ⟨rfl, rfl⟩)
    | (intro h; simp_all)

/-- C5 (as amended) at a response `text/html` with status 404. -/
theorem downloadPDF_rejected_witness :
    (downloadPDF plainHtmlWorld "https://www.uschem.com/a.pdf".toList outputDir emptyState).1 =
      false ∧
    (downloadPDF plainHtmlWorld "https://www.uschem.com/a.pdf".toList outputDir emptyState).2.fs =
      emptyState.fs :=
  downloadPDF_rejected plainHtmlWorld "https://www.uschem.com/a.pdf".toList outputDir emptyState
    (Or.inr (Or.inl (by decide)))

/-- C5 (as stated) fails for the header `Content-Type: text/html; a=application/pdf`: its
media type is `text/html`, yet with status 200 and a non-empty body `downloadPDF`
reports success and the file `PDFs/a.pdf` holds the body. -/
theorem downloadPDF_html_written :
    (htmlWorld.httpGet [] "https://www.uschem.com/a.pdf".toList).map
        (fun r => (r.StatusCode, mediaType r.ContentType)) =
      some (200, "text/html".toList) ∧
    (downloadPDF htmlWorld "https://www.uschem.com/a.pdf".toList outputDir emptyState).1 = true ∧
    (downloadPDF htmlWorld "https://www.uschem.com/a.pdf".toList outputDir emptyState).2.fs
        "PDFs/a.pdf".toList = some (FileNode.file ['x']) ∧
    emptyState.fs "PDFs/a.pdf".toList = none := by
  decide

/-- C6: when a file named `urlToFilename url` exists in the output directory,
`downloadPDF` reports `false` and leaves the state as it was, the list of
requests sent included; so after a successful download of one URL, a URL with
the same derived filename is skipped without a request. -/
theorem downloadPDF_skips_existing (w : World) (url dir : GoString) (st : State) :
    (∀ content, st.fs (w.join dir (urlToFilename w.unicodeLower url)) =
        some (FileNode.file content) → downloadPDF w url dir st = (false, st)) ∧
    (∀ url2, urlToFilename w.unicodeLower url2 = urlToFilename w.unicodeLower url →
      (downloadPDF w url dir st).1 = true →
      downloadPDF w url2 dir (downloadPDF w url dir st).2 =
        (false, (downloadPDF w url dir st).2)) := by
  constructor
  · intro content h
    exact downloadPDF_exists w url dir st (by simp [fileExists, h])
  · intro url2 he h
    obtain ⟨body, hb⟩ := downloadPDF_true w url dir st h
    exact downloadPDF_exists w url2 dir _ (by rw [he]; simp [fileExists, hb])

/-- C6 at an output directory that holds `file.pdf`: no request is sent for
`https://example.com/docs/file.PDF`. -/
theorem downloadPDF_skips_existing_witness :
    downloadPDF offlineWorld "https://example.com/docs/file.PDF".toList outputDir stateWithFile =
      (false, stateWithFile) :=
  (downloadPDF_skips_existing offlineWorld "https://example.com/docs/file.PDF".toList outputDir
    stateWithFile).1 ['x'] (by decide)

/-! ## The run of `main` -/

theorem requests_before_fetch (w : World) (st : State) :
    (if fileExists
          (if !directoryExists st.fs outputDir then createDirectory w outputDir st else st).fs
          localFile
      then removeFile w localFile
          (if !directoryExists st.fs outputDir then createDirectory w outputDir st else st)
      else (if !directoryExists st.fs outputDir then createDirectory w outputDir st
          else st)).requests = st.requests := by
  unfold removeFile createDirectory
  repeat' split
  all_goals rfl

theorem main_returns_after_fetch (w : World) (st : State) (response : Response)
    (h : w.httpGet st.requests remoteURL = some response) : (main w st).isSome = true := by
  unfold main getDataFromURL
  simp only [requests_before_fetch, h]
  rfl

/-- C10 fails on the code: when the request for the page ends in a network error,
`getDataFromURL` dereferences the nil response and `main` ends in a panic. -/
theorem main_panics_on_fetch_error (w : World) (st : State)
    (h : w.httpGet st.requests remoteURL = none) : main w st = none := by
  unfold main getDataFromURL
  simp only [requests_before_fetch, h]

/-- C10 fails on the code, at a run without network from an empty directory. -/
theorem main_panics_on_fetch_error_witness : main offlineWorld emptyState = none :=
  main_panics_on_fetch_error offlineWorld emptyState rfl

/-! ## Link extraction -/

theorem matchClassPlus_pdf (acc rest : GoString) :
    matchClassPlus acc ('.' :: 'p' :: 'd' :: 'f' :: '"' :: rest) = none := by
  simp [matchClassPlus]

theorem matchClassPlus_value (rest : GoString) :
    ∀ (w acc : GoString), w ≠ [] → '"' ∉ w →
      matchClassPlus acc (w ++ '.' :: 'p' :: 'd' :: 'f' :: '"' :: rest) =
        some (acc ++ w ++ ['.', 'p', 'd', 'f'])
  | [], _, h, _ => absurd rfl h
  | [c], acc, _, hq => by
    have hc : c ≠ '"' := fun e => hq (e ▸ List.mem_cons_self _ _)
    simp [matchClassPlus, hc]
  | c :: d :: ds, acc, _, hq => by
    have hc : c ≠ '"' := fun e => hq (e ▸ List.mem_cons_self _ _)
    have ih := matchClassPlus_value rest (d :: ds) (acc ++ [c]) (by simp)
      (fun hm => hq (List.mem_cons_of_mem _ hm))
    rw [List.cons_append, matchClassPlus, if_neg hc, ih]
    simp

theorem matchClassPlus_some :
    ∀ (r acc cap : GoString), matchClassPlus acc r = some cap →
      ∃ w rest, w ≠ [] ∧ '"' ∉ w ∧ r = w ++ '.' :: 'p' :: 'd' :: 'f' :: '"' :: rest ∧
        cap = acc ++ w ++ ['.', 'p', 'd', 'f']
  | [], _, _, h => by simp [matchClassPlus] at h
  | c :: cs, acc, cap, h => by
    rw [matchClassPlus] at h
    by_cases hc : c = '"'
    · simp [hc] at h
    · rw [if_neg hc] at h
      cases hr : matchClassPlus (acc ++ [c]) cs with
      | some cap2 =>
        rw [hr] at h
        obtain ⟨w, rest, _, hq, hcs, hcap⟩ := matchClassPlus_some cs (acc ++ [c]) cap2 hr
        refine ⟨c :: w, rest, by simp, ?_, by simp [hcs], ?_⟩
        · intro hm
          rcases List.mem_cons.1 hm with e | e
          · exact hc e.symm
          · exact hq e
        · simp only [Option.some.injEq] at h
          rw [← h, hcap]
          simp
      | none =>
        rw [hr] at h
        simp only at h
        split at h
        · rename_i hp
          obtain ⟨rest, hrest⟩ := List.isPrefixOf_iff_prefix.1 hp
          refine ⟨[c], rest, by simp, by simpa using Ne.symm hc, by simp [← hrest], ?_⟩
          simp only [Option.some.injEq] at h
          rw [← h]
        · cases h

theorem takeWhile_value (v rest : GoString) (hq : '"' ∉ v) :
    (v ++ '"' :: rest).takeWhile (fun c => c != '"') = v := by
  have hall : ∀ a ∈ v, (fun c : Char => c != '"') a = true := by
    intro a ha
    have : a ≠ '"' := fun e => hq (e ▸ ha)
    simpa using this
  rw [List.takeWhile_append_of_pos hall]
  simp

theorem hrefValueAt_link (s w rest : GoString) (h : StartsWithLink s w rest) :
    (hrefValueAt s).filter keepStrict = some (w ++ ['.', 'p', 'd', 'f']) := by
  obtain ⟨hne, hq, rfl⟩ := h
  have hqv : '"' ∉ w ++ ['.', 'p', 'd', 'f'] := by
    intro hm
    rcases List.mem_append.1 hm with hm | hm
    · exact hq hm
    · revert hm; decide
  have e : w ++ '.' :: 'p' :: 'd' :: 'f' :: '"' :: rest =
      (w ++ ['.', 'p', 'd', 'f']) ++ '"' :: rest := by simp
  have hv : hrefValueAt ('h' :: 'r' :: 'e' :: 'f' :: '=' :: '"' ::
      (w ++ '.' :: 'p' :: 'd' :: 'f' :: '"' :: rest)) = some (w ++ ['.', 'p', 'd', 'f']) := by
    unfold hrefValueAt
    simp only [List.isPrefixOf_cons₂, beq_self_eq_true, List.isPrefixOf_nil_left,
      Bool.and_self, if_true, List.drop_succ_cons, List.drop_zero]
    rw [e, takeWhile_value _ _ hqv, List.drop_left]
    simp
  rw [hv]
  have hk : keepStrict (w ++ ['.', 'p', 'd', 'f']) = true := by
    unfold keepStrict endsInPdf
    rw [Bool.and_eq_true]
    refine ⟨List.isSuffixOf_iff_suffix.2 ⟨w, rfl⟩, ?_⟩
    have : 0 < w.length := List.length_pos.2 hne
    simp
    omega
  simp [Option.filter, hk]

theorem matchAt_link (s w rest : GoString) (h : StartsWithLink s w rest) :
    matchAt s = some [['h', 'r', 'e', 'f', '=', '"'] ++ (w ++ ['.', 'p', 'd', 'f']) ++ ['"'],
      w ++ ['.', 'p', 'd', 'f']] := by
  obtain ⟨hne, hq, rfl⟩ := h
  unfold matchAt
  simp only [List.isPrefixOf_cons₂, beq_self_eq_true, List.isPrefixOf_nil_left,
    Bool.and_self, if_true, List.drop_succ_cons, List.drop_zero]
  rw [matchClassPlus_value rest w [] hne hq]
  simp

theorem matchAt_some (s : GoString) (m : List GoString) (h : matchAt s = some m) :
    ∃ w rest, StartsWithLink s w rest := by
  unfold matchAt at h
  split at h
  · rename_i hp
    obtain ⟨t, ht⟩ := List.isPrefixOf_iff_prefix.1 hp
    cases hr : matchClassPlus [] (s.drop 6) with
    | none => rw [hr] at h; simp at h
    | some cap =>
      obtain ⟨w, rest, hne, hq, hd, _⟩ := matchClassPlus_some _ _ _ hr
      refine ⟨w, rest, hne, hq, ?_⟩
      rw [← ht] at hd ⊢
      simp at hd
      simp [hd]
  · cases h

theorem hrefValueAt_some (s v : GoString)
    (h : (hrefValueAt s).filter keepStrict = some v) : ∃ w rest, StartsWithLink s w rest := by
  rw [Option.filter_eq_some] at h
  obtain ⟨hv, hk⟩ := h
  unfold hrefValueAt at hv
  split at hv
  · rename_i hp
    obtain ⟨t, ht⟩ := List.isPrefixOf_iff_prefix.1 hp
    have hd : s.drop 6 = t := by rw [← ht]; simp
    rw [hd] at hv
    simp only at hv
    split at hv
    · rename_i hh
      have hv2 : t.takeWhile (fun c => c != '"') = v := by simpa using hv
      rw [drop_length_takeWhile] at hh
      have ht2 := List.takeWhile_append_dropWhile (fun c => c != '"') t
      rw [hv2] at ht2
      cases hdw : t.dropWhile (fun c => c != '"') with
      | nil => rw [hdw] at hh; simp at hh
      | cons q rest =>
        rw [hdw] at hh ht2
        have hqq : q = '"' := by simpa using hh
        subst hqq
        unfold keepStrict endsInPdf at hk
        rw [Bool.and_eq_true] at hk
        obtain ⟨w, hw⟩ := List.isSuffixOf_iff_suffix.1 hk.1
        have hlen : 4 < v.length := by simpa using hk.2
        have hqv : '"' ∉ v := by
          intro hm
          rw [← hv2] at hm
          simpa using List.mem_takeWhile_imp hm
        refine ⟨w, rest, ?_, ?_, ?_⟩
        · intro e
          rw [e] at hw
          rw [← hw] at hlen
          simp at hlen
        · intro hm
          exact hqv (hw ▸ List.mem_append_left _ hm)
        · rw [← ht, ← ht2, ← hw]
          simp
    · cases hv
  · cases hv

theorem hrefValueAt_eq_some_iff (s v : GoString) :
    hrefValueAt s = some v ↔
      '"' ∉ v ∧ ∃ rest, s = 'h' :: 'r' :: 'e' :: 'f' :: '=' :: '"' :: (v ++ '"' :: rest) := by
  constructor
  · intro hv
    unfold hrefValueAt at hv
    split at hv
    · rename_i hp
      obtain ⟨t, ht⟩ := List.isPrefixOf_iff_prefix.1 hp
      have hd : s.drop 6 = t := by rw [← ht]; simp
      rw [hd] at hv
      simp only at hv
      split at hv
      · rename_i hh
        have hv2 : t.takeWhile (fun c => c != '"') = v := by simpa using hv
        rw [drop_length_takeWhile] at hh
        have ht2 := List.takeWhile_append_dropWhile (fun c => c != '"') t
        rw [hv2] at ht2
        cases hdw : t.dropWhile (fun c => c != '"') with
        | nil => rw [hdw] at hh; simp at hh
        | cons q rest =>
          rw [hdw] at hh ht2
          have hqq : q = '"' := by simpa using hh
          subst hqq
          refine ⟨?_, rest, ?_⟩
          · intro hm
            rw [← hv2] at hm
            simpa using List.mem_takeWhile_imp hm
          · rw [← ht, ← ht2]
            simp
      · cases hv
    · cases hv
  · rintro ⟨hq, rest, rfl⟩
    unfold hrefValueAt
    simp only [List.isPrefixOf_cons₂, beq_self_eq_true, List.isPrefixOf_nil_left,
      Bool.and_self, if_true, List.drop_succ_cons, List.drop_zero]
    rw [takeWhile_value _ _ hq, List.drop_left]
    simp

theorem hrefValueAt_of_matchAt_none (s : GoString) (h : matchAt s = none) :
    (hrefValueAt s).filter keepStrict = none := by
  cases hf : (hrefValueAt s).filter keepStrict with
  | none => rfl
  | some v =>
    obtain ⟨w, rest, hl⟩ := hrefValueAt_some s v hf
    rw [matchAt_link s w rest hl] at h
    cases h

theorem hrefValueAt_not_prefix (t : GoString) (keep : GoString → Bool)
    (h : List.isPrefixOf ['h', 'r', 'e', 'f', '=', '"'] t = false) :
    (hrefValueAt t).filter keep = none := by
  simp [hrefValueAt, h]

theorem prefix_href_quote (rest : GoString) :
    ∀ x : GoString, '"' ∉ x →
      List.isPrefixOf ['h', 'r', 'e', 'f', '=', '"'] (x ++ '"' :: rest) = true →
      x = ['h', 'r', 'e', 'f', '=']
  | [], _, h => by simp at h
  | [_], _, h => by simp at h
  | [_, _], _, h => by simp at h
  | [_, _, _], _, h => by simp at h
  | [_, _, _, _], _, h => by simp at h
  | [a, b, c, d, e], _, h => by
    simp at h
    obtain ⟨h1, h2, h3, h4, h5⟩ := h
    subst h1 h2 h3 h4 h5
    rfl
  | _ :: _ :: _ :: _ :: _ :: g :: r, hq, h => by
    simp at h
    exact absurd (by rw [h.2.2.2.2.2]; simp) hq

theorem no_link_inside (s w rest : GoString) (h : StartsWithLink s w rest) (j : Nat)
    (h1 : 1 ≤ j) (h2 : j < 6 + (w.length + 4) + 1) (keep : GoString → Bool) :
    (hrefValueAt (s.drop j)).filter keep = none := by
  obtain ⟨_, hq, rfl⟩ := h
  apply hrefValueAt_not_prefix
  by_cases hj : j < 6
  · interval_cases j <;> rfl
  · obtain ⟨i, rfl⟩ : ∃ i, j = 6 + i := ⟨j - 6, by omega⟩
    have hi : i ≤ (w ++ ['.', 'p', 'd', 'f']).length := by simp; omega
    have e : w ++ '.' :: 'p' :: 'd' :: 'f' :: '"' :: rest =
        (w ++ ['.', 'p', 'd', 'f']) ++ '"' :: rest := by simp
    have hd : List.drop (6 + i) ('h' :: 'r' :: 'e' :: 'f' :: '=' :: '"' ::
        (w ++ '.' :: 'p' :: 'd' :: 'f' :: '"' :: rest)) =
        (w ++ ['.', 'p', 'd', 'f']).drop i ++ '"' :: rest := by
      rw [e, ← List.drop_append_of_le_length hi]
      have : 6 + i = i + 6 := by omega
      rw [this]
      rfl
    rw [hd]
    by_contra hne
    have hp : List.isPrefixOf ['h', 'r', 'e', 'f', '=', '"']
        ((w ++ ['.', 'p', 'd', 'f']).drop i ++ '"' :: rest) = true := by simpa using hne
    have hqv : '"' ∉ (w ++ ['.', 'p', 'd', 'f']).drop i := by
      intro hm
      rcases List.mem_append.1 (List.mem_of_mem_drop hm) with hm | hm
      · exact hq hm
      · revert hm; decide
    have hx := prefix_href_quote rest _ hqv hp
    have hl : (w ++ ['.', 'p', 'd', 'f']).getLast? = some '=' := by
      rw [← List.take_append_drop i (w ++ ['.', 'p', 'd', 'f']), hx, List.getLast?_append]
      simp
    rw [List.getLast?_append] at hl
    simp at hl

theorem findAll_loop :
    ∀ (s : GoString) (k : Nat) (acc : List GoString),
      (∀ j, j < k → (hrefValueAt (s.drop j)).filter keepStrict = none) →
      (findAllStringSubmatch k s).foldl
        (fun pdfURLs m => if m.length > 1 then pdfURLs ++ [m.getD 1 []] else pdfURLs) acc =
        acc ++ hrefValues keepStrict s
  | [], k, acc, _ => by
    cases k <;> simp [findAllStringSubmatch, hrefValues, hrefValueAt]
  | c :: cs, k + 1, acc, h => by
    have h0 := h 0 (Nat.succ_pos _)
    rw [List.drop_zero] at h0
    rw [findAllStringSubmatch, findAll_loop cs k acc
      (fun j hj => by simpa using h (j + 1) (Nat.succ_lt_succ hj))]
    simp only [hrefValues, List.tails_cons, List.filterMap_cons, h0]
  | c :: cs, 0, acc, _ => by
    rw [findAllStringSubmatch]
    cases hm : matchAt (c :: cs) with
    | none =>
      have h0 := hrefValueAt_of_matchAt_none _ hm
      simp only []
      rw [findAll_loop cs 0 acc (fun j hj => absurd hj (Nat.not_lt_zero _))]
      simp only [hrefValues, List.tails_cons, List.filterMap_cons, h0]
    | some m =>
      obtain ⟨w, rest, hl⟩ := matchAt_some _ _ hm
      have hm2 := matchAt_link _ w rest hl
      rw [hm] at hm2
      simp only [Option.some.injEq] at hm2
      subst hm2
      have h0 := hrefValueAt_link _ w rest hl
      simp only [List.foldl_cons, List.headD_cons]
      rw [findAll_loop cs _ _ (fun j hj => by
        have := no_link_inside _ w rest hl (j + 1) (Nat.succ_pos _)
          (by simp at hj; omega) keepStrict
        simpa using this)]
      simp only [hrefValues, List.tails_cons, List.filterMap_cons, h0]
      simp

/-- C8 (as amended): `extractPDFUrls` returns, in order of position, the values `v` of the
occurrences `href="v"` in the text for which `v` has no double quote, ends in the
literal `.pdf` and has at least one rune before that suffix. -/
theorem extractPDFUrls_eq_hrefValues (text : GoString) :
    extractPDFUrls text = hrefValues keepStrict text := by
  have := findAll_loop text 0 [] (fun j hj => absurd hj (Nat.not_lt_zero _))
  rw [List.nil_append] at this
  exact this

/-- C8 (as stated) fails on `<a href=".pdf">x</a>`: the value `.pdf` has no double quote and
ends in `.pdf`, and `extractPDFUrls` returns nothing. -/
theorem extractPDFUrls_misses_bare_pdf :
    hrefValues endsInPdf "<a href=\".pdf\">x</a>".toList = [".pdf".toList] ∧
    extractPDFUrls "<a href=\".pdf\">x</a>".toList = [] := by
  decide

end USChem
